import Mathlib

/-!
Shallow embedding of the Sudoku CSP solver:
  src/src/csp.py    (constraint model + forward checking with a prune trail)
  src/src/solver.py (backtracking search with MRV + degree heuristics)

Grids are modelled as total functions `Nat → Nat → Nat` (the Python code
indexes a 9x9 list of lists; out-of-range indices are never used by the
algorithm).  Python sets of candidate values become `Finset Nat`; the
mutable domain dictionary becomes explicit state passing of a function
`Var → Finset Nat`.  Wall-clock deadline checks become an oracle
`Nat → Bool` giving the outcome of each successive comparison
`time.time() - start_time > time_limit`.  The recursion of `backtrack`
is driven by a fuel argument; the development proves that fuel 82 can
never run out (the number of empty cells among the 81 board cells
strictly decreases at each recursive call).
-/

namespace Sudoku

abbrev Var := Nat × Nat

abbrev Grid := Nat → Nat → Nat

abbrev PyGrid := List (List Nat)

/-- Reading `puzzle[r][c]` from the Python list-of-lists input. -/
def toGrid (p : PyGrid) : Grid := fun r c => (p.getD r []).getD c 0

/-- The 81 cells in the scan order of `find_unassigned`
    (`for r in range(9): for c in range(9)`). -/
def scanOrder : List Var :=
  (List.range 9).flatMap (fun r => (List.range 9).map (fun c => (r, c)))

/-- `csp.row_major_index`. -/
def row_major_index (v : Var) : Nat := v.1 * 9 + v.2

/-- The 9 cells of the 3x3 box containing `(row, col)`
    (`for r in range(br, br+3): for c in range(bc, bc+3)` with
    `br, bc = (row // 3) * 3, (col // 3) * 3`). -/
def boxCells (row col : Nat) : List Var :=
  (List.range 3).flatMap (fun i => (List.range 3).map (fun j =>
    (row / 3 * 3 + i, col / 3 * 3 + j)))

/-- The constructor guard of `SudokuSolver.__init__`:
    `assert len(puzzle) == 9 and all(len(row) == 9 for row in puzzle)`.
    `true` means the assertion passes and construction succeeds.
    Note the constructor checks nothing else: neither the value range of
    the entries nor consistency of the givens. -/
def initCheck (p : PyGrid) : Bool :=
  p.length == 9 && p.all (fun row => row.length == 9)

/-! ## csp.py : constraint model and forward checking -/

abbrev Domains := Var → Finset Nat

/-- `Dict[Var, int]` of committed assignments; only membership and lookup
    are used by the modelled operations. -/
abbrev Assignments := Var → Option Nat

/-- `csp.build_neighbors`: the 20 peers of a cell (row, column and box,
    excluding the cell itself).  Python stores them in a `set`, whose
    iteration order is unspecified; we fix the order row peers, column
    peers, box peers (deduplicated).  The claims proved below about
    `forward_check` and `restore` are insensitive to this order. -/
def NEIGHBORS (v : Var) : List Var :=
  (((List.range 9).filterMap (fun cc => if cc ≠ v.2 then some (v.1, cc) else none))
    ++ ((List.range 9).filterMap (fun rr => if rr ≠ v.1 then some (rr, v.2) else none))
    ++ ((boxCells v.1 v.2).filter (fun p => p ≠ v))).dedup

/-- Pointwise update of the domain dictionary. -/
def updateDom (d : Domains) (v : Var) (s : Finset Nat) : Domains :=
  fun w => if w = v then s else d w

/-- `csp.FCState`: the prune trail, a list of `(neighbor, removed_value)`. -/
structure FCState where
  pruned : List (Var × Nat)
deriving DecidableEq

/-- `FCState.restore`: re-insert every pruned value, walking the trail in
    reverse order of removal.  (The Python method also clears the trail;
    each trail is single use.) -/
def FCState.restore (s : FCState) (domains : Domains) : Domains :=
  s.pruned.reverse.foldl (fun d pv => updateDom d pv.1 (insert pv.2 (d pv.1))) domains

/-- The loop body of `csp.forward_check` over the neighbor list, carrying
    the current domains and the trail accumulated so far. -/
def fcLoop (assignments : Assignments) (val : Nat) :
    List Var → Domains → List (Var × Nat) → Option FCState × Domains
  | [], doms, pruned => (some ⟨pruned⟩, doms)
  | n :: rest, doms, pruned =>
    if (assignments n).isSome then
      fcLoop assignments val rest doms pruned
    else if val ∈ doms n then
      let doms' := updateDom doms n ((doms n).erase val)
      let pruned' := pruned ++ [(n, val)]
      if (doms' n).card = 0 then
        (none, FCState.restore ⟨pruned'⟩ doms')
      else
        fcLoop assignments val rest doms' pruned'
    else
      fcLoop assignments val rest doms pruned

/-- `csp.forward_check`: remove `val` from every unassigned neighbor of
    `var`; on an emptied domain, restore everything pruned in this call
    and signal failure with `none`.  Returns the final domains alongside
    (the Python code mutates them in place). -/
def forward_check (assignments : Assignments) (var : Var) (val : Nat)
    (domains : Domains) : Option FCState × Domains :=
  fcLoop assignments val (NEIGHBORS var) domains []

/-! ## solver.py : helpers -/

/-- `SudokuSolver._candidates`: sorted legal values for an empty cell. -/
def candidates (g : Grid) (row col : Nat) : List Nat :=
  if g row col ≠ 0 then []
  else
    let used :=
      ((((List.range 9).map (fun c => g row c))
        ++ ((List.range 9).map (fun r => g r col)))
        ++ ((boxCells row col).map (fun p => g p.1 p.2))).filter (fun v => v ≠ 0)
    ((List.range 9).map (fun v => v + 1)).filter (fun v => v ∉ used)

/-- The `seen` set of `SudokuSolver._degree`: distinct empty peers. -/
def degSeen (g : Grid) (row col : Nat) : List Var :=
  ((((List.range 9).filterMap (fun c =>
        if c ≠ col ∧ g row c = 0 then some (row, c) else none))
    ++ ((List.range 9).filterMap (fun r =>
        if r ≠ row ∧ g r col = 0 then some (r, col) else none)))
    ++ ((boxCells row col).filterMap (fun p =>
        if (p.1 ≠ row ∨ p.2 ≠ col) ∧ g p.1 p.2 = 0 then some p else none))).dedup

/-- `SudokuSolver._degree`: number of unassigned neighbors, `-1` for a
    filled cell. -/
def degree (g : Grid) (row col : Nat) : Int :=
  if g row col ≠ 0 then -1 else ((degSeen g row col).length : Int)

/-- The comparison key `(mrv, -degree, col, row)` built by
    `find_unassigned`. -/
structure Key where
  mrv : Nat
  negdeg : Int
  col : Nat
  row : Nat
deriving DecidableEq

/-- Strict lexicographic comparison of keys, as Python compares the
    4-tuples `key < best[:4]`. -/
def keyLt (a b : Key) : Bool :=
  if a.mrv ≠ b.mrv then decide (a.mrv < b.mrv)
  else if a.negdeg ≠ b.negdeg then decide (a.negdeg < b.negdeg)
  else if a.col ≠ b.col then decide (a.col < b.col)
  else decide (a.row < b.row)

/-- The key a cell would get in the scan. -/
def keyOf (g : Grid) (r c : Nat) : Key :=
  ⟨(candidates g r c).length, -(degree g r c), c, r⟩

/-- Outcome of scanning the 81 cells: either the early return on a cell
    with an empty candidate set, or the best key found (with its
    candidate list). -/
inductive ScanOut where
  | zero (r c : Nat) (deg : Int)
  | best (b : Option (Key × List Nat))
deriving DecidableEq

/-- The scan loop of `SudokuSolver.find_unassigned`. -/
def scanCells (g : Grid) : List Var → Option (Key × List Nat) → ScanOut
  | [], b => .best b
  | (r, c) :: rest, b =>
    if g r c = 0 then
      let cand := candidates g r c
      let mrv := cand.length
      if mrv = 0 then
        .zero r c (degree g r c)
      else
        let deg := degree g r c
        let key : Key := ⟨mrv, -deg, c, r⟩
        match b with
        | none => scanCells g rest (some (key, cand))
        | some (bk, bc) =>
          if keyLt key bk then scanCells g rest (some (key, cand))
          else scanCells g rest (some (bk, bc))
    else
      scanCells g rest b

/-- Result of `find_unassigned`: `(None, None, [], None, None)` when all
    cells are filled, otherwise `(row, col, candidates, mrv, degree)`. -/
inductive FindResult where
  | allFilled
  | found (r c : Nat) (cand : List Nat) (mrv : Nat) (deg : Int)
deriving DecidableEq

/-- `SudokuSolver.find_unassigned`: MRV, then highest degree, then the
    tuple tie-break `(col, row)`; early return on an empty candidate
    set.  The final `cand.sort()` is modelled by `insertionSort`. -/
def find_unassigned (g : Grid) : FindResult :=
  match scanCells g scanOrder none with
  | .zero r c d => .found r c [] 0 d
  | .best none => .allFilled
  | .best (some (k, cand)) =>
      .found k.row k.col (cand.insertionSort (· ≤ ·)) k.mrv (-k.negdeg)

/-- `SudokuSolver.is_valid`: `val` clashes with no cell of the row,
    column or box of `(row, col)`. -/
def is_valid (g : Grid) (row col val : Nat) : Bool :=
  ((List.range 9).all (fun c => g row c != val))
    && ((List.range 9).all (fun r => g r col != val))
    && ((boxCells row col).all (fun p => g p.1 p.2 != val))

/-- `self.puzzle[r][c] = v`. -/
def setCell (g : Grid) (row col v : Nat) : Grid :=
  fun r c => if r = row ∧ c = col then v else g r c

/-- One record of `self.trace`. -/
structure TraceEntry where
  row : Nat
  col : Nat
  domain_size : Nat
  degree : Int
  value : Nat
deriving DecidableEq

/-- Mutable state of a `SudokuSolver` during `solve`: the working grid,
    the decision trace, how many deadline comparisons have happened
    (indexing the timeout oracle), and the `timed_out` flag. -/
structure SState where
  grid : Grid
  trace : List TraceEntry
  checks : Nat
  timedOut : Bool

/-- `if len(self.trace) < 4: self.trace.append({...})`. -/
def addTrace (st : SState) (r c mrv : Nat) (deg : Int) (v : Nat) : SState :=
  if st.trace.length < 4 then
    { st with trace := st.trace ++ [⟨r, c, mrv, deg, v⟩] }
  else st

/-- `self.puzzle[r][c] = v`, keeping the rest of the state. -/
def commit (st : SState) (r c v : Nat) : SState :=
  { st with grid := setCell st.grid r c v }

/-- Recording one deadline comparison that came back negative. -/
def tick (st : SState) : SState := { st with checks := st.checks + 1 }

/-- Recording one deadline comparison that expired:
    `self.timed_out = True; return False`. -/
def timeoutStop (st : SState) : SState :=
  { st with checks := st.checks + 1, timedOut := true }

/-- The `for v in cand` loop of `SudokuSolver.backtrack`.  `bt` is the
    recursive call at the next depth (`backtrack` passes itself with one
    unit less fuel).  On a failed recursive call the assignment is
    undone and the deadline is consulted again before trying the next
    value. -/
def tryVals (tmo : Nat → Bool) (bt : SState → Option (Bool × SState))
    (r c mrv : Nat) (deg : Int) : List Nat → SState → Option (Bool × SState)
  | [], st => some (false, st)
  | v :: vs, st =>
    if is_valid st.grid r c v then
      match bt (commit (addTrace st r c mrv deg v) r c v) with
      | none => none
      | some (true, st3) => some (true, st3)
      | some (false, st3) =>
        let st4 := commit st3 r c 0
        if tmo st4.checks then
          some (false, timeoutStop st4)
        else
          tryVals tmo bt r c mrv deg vs (tick st4)
    else
      tryVals tmo bt r c mrv deg vs st

/-- `SudokuSolver.backtrack` with fuel.  Each call first consults the
    deadline, then selects a cell and tries its candidates in increasing
    order.  `none` means the fuel ran out (shown impossible below for
    fuel 82). -/
def backtrack (tmo : Nat → Bool) : Nat → SState → Option (Bool × SState)
  | 0, _ => none
  | fuel + 1, st =>
    if tmo st.checks then
      some (false, timeoutStop st)
    else
      match find_unassigned (tick st).grid with
      | .allFilled => some (true, tick st)
      | .found r c cand mrv deg =>
          tryVals tmo (backtrack tmo fuel) r c mrv deg cand (tick st)

/-- `SudokuSolver.solve` on a grid: run `backtrack` from a fresh state.
    Fuel 82 exceeds the number of empty cells of any board. -/
def solve (tmo : Nat → Bool) (g : Grid) : Option (Bool × SState) :=
  backtrack tmo 82 { grid := g, trace := [], checks := 0, timedOut := false }

/-! ## Heap model of the Python lists

For the frame claim about the caller grid (the constructor takes a
defensive copy `[row[:] for row in puzzle]` and `solve` mutates only the
copy) we model Python row lists as heap cells: a store from allocation
ids to integer lists.  The outer list of row references is never
mutated, so it stays a plain Lean list of ids. -/

structure Heap where
  store : Nat → List Nat
  next : Nat

/-- Allocate a fresh list object. -/
def alloc (h : Heap) (contents : List Nat) : Heap × Nat :=
  ({ store := fun i => if i = h.next then contents else h.store i,
     next := h.next + 1 }, h.next)

/-- `[row[:] for row in puzzle]`: allocate a fresh copy of every row. -/
def copyRows (h : Heap) : List Nat → Heap × List Nat
  | [] => (h, [])
  | rid :: rest =>
    let a := alloc h (h.store rid)
    let r := copyRows a.1 rest
    (r.1, a.2 :: r.2)

/-- `self.puzzle[r][c] = v`: an in-place write to the row object that
    position `r` of the reference list points at. -/
def writeCell (h : Heap) (rowIds : List Nat) (r c v : Nat) : Heap :=
  let rid := rowIds.getD r 0
  { h with store := fun i => if i = rid then (h.store rid).set c v else h.store i }

/-- Reading `self.puzzle[r][c]` through the reference list. -/
def heapGrid (h : Heap) (rowIds : List Nat) : Grid :=
  fun r c => ((h.store (rowIds.getD r 0)).getD c 0)

/-- Solver state over the heap: same as `SState` with the grid replaced
    by the heap (the row id list is fixed for the whole search). -/
structure HS where
  heap : Heap
  trace : List TraceEntry
  checks : Nat
  timedOut : Bool

/-- The trace append over the heap state. -/
def haddTrace (st : HS) (r c mrv : Nat) (deg : Int) (v : Nat) : HS :=
  if st.trace.length < 4 then
    { st with trace := st.trace ++ [⟨r, c, mrv, deg, v⟩] }
  else st

/-- `self.puzzle[r][c] = v` as an in-place write to a row object. -/
def hcommit (st : HS) (ids : List Nat) (r c v : Nat) : HS :=
  { st with heap := writeCell st.heap ids r c v }

def htick (st : HS) : HS := { st with checks := st.checks + 1 }

def htimeoutStop (st : HS) : HS :=
  { st with checks := st.checks + 1, timedOut := true }

/-- `tryVals` over the heap representation of the working grid. -/
def heapTryVals (tmo : Nat → Bool) (ids : List Nat)
    (bt : HS → Option (Bool × HS))
    (r c mrv : Nat) (deg : Int) : List Nat → HS → Option (Bool × HS)
  | [], st => some (false, st)
  | v :: vs, st =>
    if is_valid (heapGrid st.heap ids) r c v then
      match bt (hcommit (haddTrace st r c mrv deg v) ids r c v) with
      | none => none
      | some (true, st3) => some (true, st3)
      | some (false, st3) =>
        let st4 := hcommit st3 ids r c 0
        if tmo st4.checks then
          some (false, htimeoutStop st4)
        else
          heapTryVals tmo ids bt r c mrv deg vs (htick st4)
    else
      heapTryVals tmo ids bt r c mrv deg vs st

/-- `backtrack` over the heap representation. -/
def heapBacktrack (tmo : Nat → Bool) (ids : List Nat) :
    Nat → HS → Option (Bool × HS)
  | 0, _ => none
  | fuel + 1, st =>
    if tmo st.checks then
      some (false, htimeoutStop st)
    else
      match find_unassigned (heapGrid (htick st).heap ids) with
      | .allFilled => some (true, htick st)
      | .found r c cand mrv deg =>
          heapTryVals tmo ids (heapBacktrack tmo ids fuel) r c mrv deg cand (htick st)

/-- `solve` over the heap representation: run on the row objects that
    the constructor allocated. -/
def heapSolve (tmo : Nat → Bool) (h : Heap) (ids : List Nat) :
    Option (Bool × HS) :=
  heapBacktrack tmo ids 82 { heap := h, trace := [], checks := 0, timedOut := false }

/-! ## Specification predicates -/

/-- Two cells share a row, a column or a 3x3 box (this includes the
    reflexive case). -/
def sameUnit (p q : Var) : Prop :=
  p.1 = q.1 ∨ p.2 = q.2 ∨ (p.1 / 3 = q.1 / 3 ∧ p.2 / 3 = q.2 / 3)

/-- No two distinct mutually visible board cells hold the same nonzero
    value. -/
def conflictFree (g : Grid) : Prop :=
  ∀ p ∈ scanOrder, ∀ q ∈ scanOrder, p ≠ q → sameUnit p q →
    g p.1 p.2 ≠ 0 → g p.1 p.2 ≠ g q.1 q.2

/-- Every board cell holds a value at most 9 (0 meaning empty). -/
def valuesInRange (g : Grid) : Prop := ∀ p ∈ scanOrder, g p.1 p.2 ≤ 9

/-- Every board cell is filled. -/
def gridComplete (g : Grid) : Prop := ∀ p ∈ scanOrder, g p.1 p.2 ≠ 0

/-- Number of empty board cells. -/
def countEmpty (g : Grid) : Nat :=
  (scanOrder.filter (fun p => g p.1 p.2 = 0)).length

def rowCells (r : Nat) : List Var := (List.range 9).map (fun c => (r, c))

def colCells (c : Nat) : List Var := (List.range 9).map (fun r => (r, c))

/-- The 27 units of the board: 9 rows, 9 columns, 9 boxes. -/
def allUnits : List (List Var) :=
  (((List.range 9).map rowCells) ++ ((List.range 9).map colCells))
    ++ ((List.range 3).flatMap (fun i =>
          (List.range 3).map (fun j => boxCells (3 * i) (3 * j))))

def oneTo9 : List Nat := [1, 2, 3, 4, 5, 6, 7, 8, 9]

def unitVals (g : Grid) (u : List Var) : List Nat := u.map (fun p => g p.1 p.2)

/-- Every row, column and 3x3 box is a permutation of 1..9. -/
def validSolution (g : Grid) : Prop :=
  ∀ u ∈ allUnits, (unitVals g u).Perm oneTo9

instance (p q : Var) : Decidable (sameUnit p q) := by
  unfold sameUnit; infer_instance

instance (g : Grid) : Decidable (conflictFree g) := by
  unfold conflictFree; infer_instance

instance (g : Grid) : Decidable (valuesInRange g) := by
  unfold valuesInRange; infer_instance

instance (g : Grid) : Decidable (gridComplete g) := by
  unfold gridComplete; infer_instance

instance (g : Grid) : Decidable (validSolution g) := by
  unfold validSolution; infer_instance

/-- Boolean pointwise equality of the 81 board cells (used to state
    concrete evaluations without comparing functions). -/
def gridEqB (g h : Grid) : Bool :=
  scanOrder.all (fun p => g p.1 p.2 == h p.1 p.2)

/-! ## Concrete boards used in witnesses and counterexamples -/

/-- A valid completed board. -/
def SL : PyGrid := [
  [1,2,3,4,5,6,7,8,9],
  [4,5,6,7,8,9,1,2,3],
  [7,8,9,1,2,3,4,5,6],
  [2,3,4,5,6,7,8,9,1],
  [5,6,7,8,9,1,2,3,4],
  [8,9,1,2,3,4,5,6,7],
  [3,4,5,6,7,8,9,1,2],
  [6,7,8,9,1,2,3,4,5],
  [9,1,2,3,4,5,6,7,8]]

/-- Replace one entry of a list-of-lists board. -/
def setL (p : PyGrid) (r c v : Nat) : PyGrid :=
  p.set r ((p.getD r []).set c v)

/-- `SL` with cells (0,1) and (1,0) blanked: both remaining cells tie on
    MRV and degree. -/
def cexG1L : PyGrid := setL (setL SL 0 1 0) 1 0 0

/-- `SL` with cell (0,0) blanked: a one-blank puzzle. -/
def g1L : PyGrid := setL SL 0 0 0

/-- `SL` with (0,1) overwritten by 1: two 1s in row 0 (and in box 0),
    yet every cell filled. -/
def dupL : PyGrid := setL SL 0 1 1

/-- `SL` with (4,4) overwritten by 8: two 8s in row 4, every cell
    filled. -/
def dupL3 : PyGrid := setL SL 4 4 8

/-- `SL` with (0,0) overwritten by 10: a 9x9 board holding a value
    outside [0,9]. -/
def badValL : PyGrid := setL SL 0 0 10

/-- The timeout oracle of a run whose deadline never expires. -/
def tmoF : Nat → Bool := fun _ => false

/-- A board with three blanks in row 0 on which the search must undo its
    first two committed placements: givens elsewhere are deliberately
    conflicting, which the constructor does not reject. -/
def cexG8L : PyGrid := [
  [0,0,0,4,5,6,7,8,9],
  [3,3,3,1,1,1,1,1,1],
  [4,4,4,1,1,1,1,1,1],
  [5,5,5,1,1,1,1,1,1],
  [6,6,6,1,1,1,1,1,1],
  [7,7,7,1,1,1,1,1,1],
  [8,8,8,1,1,1,1,1,1],
  [9,9,9,1,1,1,1,1,1],
  [9,9,9,1,1,1,1,1,1]]

/-- Invariant of the running best during the scan: it describes an empty
    in-range cell, carries its candidate list and its exact comparison
    key, and its candidate list is nonempty. -/
def GoodBest (g : Grid) : Option (Key × List Nat) → Prop
  | none => True
  | some (k, cd) =>
      k.row < 9 ∧ k.col < 9 ∧ g k.row k.col = 0 ∧
      cd = candidates g k.row k.col ∧ k = keyOf g k.row k.col ∧ cd ≠ []

/-- The state `solve` reaches on the one-blank board `g1L`: cell (0,0)
    filled with 1, one trace entry, two deadline checks. -/
def st1 : SState :=
  ⟨setCell (toGrid g1L) 0 0 1, [⟨0, 0, 1, 0, 1⟩], 2, false⟩

/-- An assignment map with no committed assignments. -/
def aF : Assignments := fun _ => none

/-- Domains in which neighbor (0,1) would be emptied by removing 5. -/
def dW : Domains :=
  fun p => if p = ((0, 1) : Var) then ({5} : Finset Nat) else {1, 2, 3}

/-- Domains in which forward checking on value 5 prunes exactly one
    value, from neighbor (0,1). -/
def dW2 : Domains :=
  fun p => if p = ((0, 1) : Var) then ({4, 5} : Finset Nat) else {1, 2}

/-- A heap whose first nine rows hold the rows of the board `SL`,
    belonging to the caller. -/
def callerHeap : Heap := { store := fun i => SL.getD i [], next := 9 }

/-- The row references of the caller board. -/
def callerRids : List Nat := [0, 1, 2, 3, 4, 5, 6, 7, 8]

/-! ## Basic lemmas about the board -/

theorem mem_scanOrder {p : Var} : p ∈ scanOrder ↔ p.1 < 9 ∧ p.2 < 9 := by
  obtain ⟨r, c⟩ := p
  simp only [scanOrder, List.mem_flatMap, List.mem_map, List.mem_range]
  constructor
  · rintro ⟨a, ha, b, hb, h⟩
    obtain ⟨rfl, rfl⟩ := Prod.mk.injEq .. ▸ h
    exact ⟨ha, hb⟩
  · rintro ⟨h1, h2⟩
    exact ⟨r, h1, c, h2, rfl⟩

theorem scanOrder_nodup : scanOrder.Nodup := by decide

theorem mem_boxCells {a b row col : Nat} :
    (a, b) ∈ boxCells row col ↔ a / 3 = row / 3 ∧ b / 3 = col / 3 := by
  simp only [boxCells, List.mem_flatMap, List.mem_map, List.mem_range]
  constructor
  · rintro ⟨i, hi, j, hj, h⟩
    obtain ⟨h1, h2⟩ := Prod.mk.injEq .. ▸ h
    omega
  · rintro ⟨h1, h2⟩
    exact ⟨a - row / 3 * 3, by omega, b - col / 3 * 3, by omega, by
      rw [Prod.mk.injEq]; omega⟩

@[simp] theorem setCell_self (g : Grid) (r c v : Nat) : setCell g r c v r c = v := by
  simp [setCell]

theorem setCell_ne (g : Grid) (r c v : Nat) {r' c' : Nat}
    (h : (r', c') ≠ (r, c)) : setCell g r c v r' c' = g r' c' := by
  have : ¬ (r' = r ∧ c' = c) := by
    intro ⟨h1, h2⟩; exact h (by rw [h1, h2])
  simp [setCell, this]

theorem candidates_mem_range {g : Grid} {r c v : Nat}
    (h : v ∈ candidates g r c) : 1 ≤ v ∧ v ≤ 9 := by
  unfold candidates at h
  split at h
  · simp at h
  · simp only [List.mem_filter, List.mem_map, List.mem_range] at h
    obtain ⟨⟨w, hw, rfl⟩, -⟩ := h
    omega

theorem is_valid_peer {g : Grid} {row col val : Nat}
    (h : is_valid g row col val = true) {q : Var}
    (hq1 : q.1 < 9) (hq2 : q.2 < 9) (hu : sameUnit (row, col) q) :
    g q.1 q.2 ≠ val := by
  obtain ⟨a, b⟩ := q
  simp only [is_valid, Bool.and_eq_true, List.all_eq_true, List.mem_range,
    bne_iff_ne, ne_eq] at h
  obtain ⟨⟨hrow, hcol⟩, hbox⟩ := h
  rcases hu with h1 | h2 | h3
  · simp only at h1
    subst h1; exact hrow b hq2
  · simp only at h2
    subst h2; exact hcol a hq1
  · exact hbox (a, b) (mem_boxCells.mpr ⟨h3.1.symm, h3.2.symm⟩)

/-! ## Order lemmas for the selection key -/

theorem keyLt_iff {a b : Key} : keyLt a b = true ↔
    (a.mrv < b.mrv ∨ (a.mrv = b.mrv ∧ (a.negdeg < b.negdeg ∨ (a.negdeg = b.negdeg ∧
      (a.col < b.col ∨ (a.col = b.col ∧ a.row < b.row)))))) := by
  unfold keyLt
  by_cases h1 : a.mrv = b.mrv <;> by_cases h2 : a.negdeg = b.negdeg <;>
    by_cases h3 : a.col = b.col <;> simp [h1, h2, h3]

theorem keyLt_irrefl (a : Key) : keyLt a a = false := by
  rw [Bool.eq_false_iff]
  intro h
  rw [keyLt_iff] at h
  omega

theorem keyLt_trans {a b c : Key} (h1 : keyLt a b = true)
    (h2 : keyLt b c = true) : keyLt a c = true := by
  rw [keyLt_iff] at h1 h2 ⊢
  omega

theorem keyLt_antisymm_eq {a b : Key} (h1 : keyLt a b = false)
    (h2 : keyLt b a = false) : a = b := by
  rw [Bool.eq_false_iff, ne_eq, keyLt_iff] at h1 h2
  obtain ⟨m1, d1, c1, r1⟩ := a
  obtain ⟨m2, d2, c2, r2⟩ := b
  simp only [Key.mk.injEq]
  simp only at h1 h2
  refine ⟨by omega, by omega, by omega, by omega⟩

theorem keyLt_le_trans_false {x k b : Key} (hxb : keyLt x b = false)
    (hk : k = b ∨ keyLt k b = true) : keyLt x k = false := by
  rcases hk with rfl | hk
  · exact hxb
  · rw [Bool.eq_false_iff] at hxb ⊢
    intro hxk
    exact hxb (keyLt_trans hxk hk)

/-! ## Scan lemmas for find_unassigned -/

theorem scanCells_best_good {g : Grid} (cells : List Var) :
    ∀ (b : Option (Key × List Nat)),
      (∀ p ∈ cells, p.1 < 9 ∧ p.2 < 9) → GoodBest g b →
      ∀ k cd, scanCells g cells b = .best (some (k, cd)) →
      GoodBest g (some (k, cd)) := by
  induction cells with
  | nil =>
      intro b _ hb k cd h
      simp only [scanCells, ScanOut.best.injEq] at h
      rwa [h] at hb
  | cons p rest ih =>
      obtain ⟨r, c⟩ := p
      intro b hmem hb k cd h
      have hp := hmem (r, c) (List.mem_cons_self _ _)
      have hrest : ∀ q ∈ rest, q.1 < 9 ∧ q.2 < 9 :=
        fun q hq => hmem q (List.mem_cons_of_mem _ hq)
      simp only [scanCells] at h
      by_cases hrc : g r c = 0
      · rw [if_pos hrc] at h
        by_cases hm : (candidates g r c).length = 0
        · rw [if_pos hm] at h
          cases h
        · rw [if_neg hm] at h
          have hgood : GoodBest g (some (⟨(candidates g r c).length,
              -(degree g r c), c, r⟩, candidates g r c)) :=
            ⟨hp.1, hp.2, hrc, rfl, rfl, fun he => hm (by rw [he]; rfl)⟩
          cases b with
          | none => exact ih _ hrest hgood k cd h
          | some bp =>
              obtain ⟨bk, bc⟩ := bp
              dsimp only at h
              by_cases hk : keyLt ⟨(candidates g r c).length,
                  -(degree g r c), c, r⟩ bk = true
              · rw [if_pos hk] at h
                exact ih _ hrest hgood k cd h
              · rw [if_neg hk] at h
                exact ih _ hrest hb k cd h
      · rw [if_neg hrc] at h
        exact ih _ hrest hb k cd h

theorem scanCells_min {g : Grid} (cells : List Var) :
    ∀ (b out : Option (Key × List Nat)),
      scanCells g cells b = .best out →
      ((∀ p ∈ cells, g p.1 p.2 = 0 →
          ∃ k cd, out = some (k, cd) ∧ keyLt (keyOf g p.1 p.2) k = false)
        ∧ (∀ bk bc, b = some (bk, bc) →
          ∃ k cd, out = some (k, cd) ∧ (k = bk ∨ keyLt k bk = true))) := by
  induction cells with
  | nil =>
      intro b out h
      simp only [scanCells, ScanOut.best.injEq] at h
      subst h
      constructor
      · intro p hp
        simp at hp
      · intro bk bc hbk
        exact ⟨bk, bc, by rw [hbk], Or.inl rfl⟩
  | cons p rest ih =>
      obtain ⟨r, c⟩ := p
      intro b out h
      simp only [scanCells] at h
      by_cases hrc : g r c = 0
      · rw [if_pos hrc] at h
        by_cases hm : (candidates g r c).length = 0
        · rw [if_pos hm] at h
          cases h
        · rw [if_neg hm] at h
          cases b with
          | none =>
              obtain ⟨hmin, hmono⟩ := ih _ _ h
              have hself := hmono _ _ rfl
              obtain ⟨k, cd, hout, hk⟩ := hself
              constructor
              · intro q hq hq0
                rcases List.mem_cons.mp hq with heq | hq'
                · obtain ⟨rfl, rfl⟩ := Prod.mk.injEq .. ▸ heq
                  exact ⟨k, cd, hout,
                    keyLt_le_trans_false (keyLt_irrefl _) hk⟩
                · exact hmin q hq' hq0
              · intro bk bc hbk
                cases hbk
          | some bp =>
              obtain ⟨bk0, bc0⟩ := bp
              dsimp only at h
              by_cases hklt : keyLt ⟨(candidates g r c).length,
                  -(degree g r c), c, r⟩ bk0 = true
              · rw [if_pos hklt] at h
                obtain ⟨hmin, hmono⟩ := ih _ _ h
                obtain ⟨k, cd, hout, hk⟩ := hmono _ _ rfl
                constructor
                · intro q hq hq0
                  rcases List.mem_cons.mp hq with heq | hq'
                  · obtain ⟨rfl, rfl⟩ := Prod.mk.injEq .. ▸ heq
                    exact ⟨k, cd, hout,
                      keyLt_le_trans_false (keyLt_irrefl _) hk⟩
                  · exact hmin q hq' hq0
                · intro bk bc hbk
                  cases hbk
                  refine ⟨k, cd, hout, Or.inr ?_⟩
                  rcases hk with rfl | hk
                  · exact hklt
                  · exact keyLt_trans hk hklt
              · rw [if_neg hklt] at h
                obtain ⟨hmin, hmono⟩ := ih _ _ h
                obtain ⟨k, cd, hout, hk⟩ := hmono _ _ rfl
                constructor
                · intro q hq hq0
                  rcases List.mem_cons.mp hq with heq | hq'
                  · obtain ⟨rfl, rfl⟩ := Prod.mk.injEq .. ▸ heq
                    refine ⟨k, cd, hout, ?_⟩
                    exact keyLt_le_trans_false
                      (Bool.eq_false_iff.mpr (fun hx => hklt hx)) hk
                  · exact hmin q hq' hq0
                · intro bk bc hbk
                  cases hbk
                  exact ⟨k, cd, hout, hk⟩
      · rw [if_neg hrc] at h
        obtain ⟨hmin, hmono⟩ := ih _ _ h
        refine ⟨?_, hmono⟩
        intro q hq hq0
        rcases List.mem_cons.mp hq with heq | hq'
        · obtain ⟨rfl, rfl⟩ := Prod.mk.injEq .. ▸ heq
          exact absurd hq0 hrc
        · exact hmin q hq' hq0

theorem scanCells_best_none {g : Grid} (cells : List Var) :
    ∀ b, scanCells g cells b = .best none →
      b = none ∧ ∀ p ∈ cells, g p.1 p.2 ≠ 0 := by
  induction cells with
  | nil =>
      intro b h
      simp only [scanCells, ScanOut.best.injEq] at h
      exact ⟨h, by simp⟩
  | cons p rest ih =>
      obtain ⟨r, c⟩ := p
      intro b h
      simp only [scanCells] at h
      by_cases hrc : g r c = 0
      · rw [if_pos hrc] at h
        by_cases hm : (candidates g r c).length = 0
        · rw [if_pos hm] at h
          cases h
        · rw [if_neg hm] at h
          exfalso
          have hsome : ∀ x : Key × List Nat,
              scanCells g rest (some x) = .best none → False := by
            intro x hx
            obtain ⟨-, hmono⟩ := scanCells_min rest _ _ hx
            obtain ⟨k, cd, hout, -⟩ := hmono x.1 x.2 (by rw [Prod.mk.eta])
            cases hout
          cases b with
          | none => exact hsome _ h
          | some bp =>
              obtain ⟨bk0, bc0⟩ := bp
              dsimp only at h
              by_cases hklt : keyLt ⟨(candidates g r c).length,
                  -(degree g r c), c, r⟩ bk0 = true
              · rw [if_pos hklt] at h
                exact hsome _ h
              · rw [if_neg hklt] at h
                exact hsome _ h
      · rw [if_neg hrc] at h
        obtain ⟨hb, hrest⟩ := ih _ h
        refine ⟨hb, ?_⟩
        intro q hq
        rcases List.mem_cons.mp hq with heq | hq'
        · obtain ⟨rfl, rfl⟩ := Prod.mk.injEq .. ▸ heq
          exact hrc
        · exact hrest q hq'

theorem scanCells_zero {g : Grid} (cells : List Var) :
    ∀ b r c d, scanCells g cells b = .zero r c d →
      (r, c) ∈ cells ∧ g r c = 0 ∧ (candidates g r c).length = 0 ∧
        d = degree g r c := by
  induction cells with
  | nil =>
      intro b r c d h
      simp only [scanCells] at h
      cases h
  | cons p rest ih =>
      obtain ⟨r0, c0⟩ := p
      intro b r c d h
      simp only [scanCells] at h
      by_cases hrc : g r0 c0 = 0
      · rw [if_pos hrc] at h
        by_cases hm : (candidates g r0 c0).length = 0
        · rw [if_pos hm] at h
          obtain ⟨rfl, rfl, rfl⟩ := ScanOut.zero.injEq .. ▸ h
          exact ⟨List.mem_cons_self _ _, hrc, hm, rfl⟩
        · rw [if_neg hm] at h
          have step : ∀ b', scanCells g rest b' = .zero r c d →
              (r, c) ∈ (r0, c0) :: rest ∧ g r c = 0 ∧
              (candidates g r c).length = 0 ∧ d = degree g r c := by
            intro b' h'
            obtain ⟨h1, h2, h3, h4⟩ := ih b' r c d h'
            exact ⟨List.mem_cons_of_mem _ h1, h2, h3, h4⟩
          cases b with
          | none => exact step _ h
          | some bp =>
              obtain ⟨bk0, bc0⟩ := bp
              dsimp only at h
              by_cases hklt : keyLt ⟨(candidates g r0 c0).length,
                  -(degree g r0 c0), c0, r0⟩ bk0 = true
              · rw [if_pos hklt] at h
                exact step _ h
              · rw [if_neg hklt] at h
                exact step _ h
      · rw [if_neg hrc] at h
        obtain ⟨h1, h2, h3, h4⟩ := ih b r c d h
        exact ⟨List.mem_cons_of_mem _ h1, h2, h3, h4⟩

/-! ## Properties of find_unassigned -/

theorem find_unassigned_found {g : Grid} {r c : Nat} {cand : List Nat}
    {mrv : Nat} {deg : Int}
    (h : find_unassigned g = .found r c cand mrv deg) :
    r < 9 ∧ c < 9 ∧ g r c = 0 ∧ (∀ v ∈ cand, 1 ≤ v ∧ v ≤ 9) := by
  unfold find_unassigned at h
  cases hscan : scanCells g scanOrder none with
  | zero r' c' d =>
      rw [hscan] at h
      obtain ⟨hr, hc, hcand, -, -⟩ := FindResult.found.injEq .. ▸ h
      obtain ⟨hmem, hempty, -, -⟩ := scanCells_zero scanOrder none r' c' d hscan
      rw [hr, hc] at hmem hempty
      obtain ⟨h1, h2⟩ := mem_scanOrder.mp hmem
      exact ⟨h1, h2, hempty, by rw [← hcand]; simp⟩
  | best b =>
      cases b with
      | none => rw [hscan] at h; cases h
      | some kc =>
          obtain ⟨k, cd⟩ := kc
          rw [hscan] at h
          obtain ⟨hr, hc, hcand, -, -⟩ := FindResult.found.injEq .. ▸ h
          have hgood := scanCells_best_good scanOrder none
            (fun q hq => mem_scanOrder.mp hq) trivial k cd hscan
          obtain ⟨hk1, hk2, hk3, hk4, -, -⟩ := hgood
          subst hr; subst hc
          refine ⟨hk1, hk2, hk3, ?_⟩
          intro v hv
          rw [← hcand] at hv
          have hv' : v ∈ cd := (List.perm_insertionSort _ _).mem_iff.mp hv
          rw [hk4] at hv'
          exact candidates_mem_range hv'

theorem find_unassigned_allFilled {g : Grid}
    (h : find_unassigned g = .allFilled) : gridComplete g := by
  unfold find_unassigned at h
  cases hscan : scanCells g scanOrder none with
  | zero r' c' d => rw [hscan] at h; cases h
  | best b =>
      cases b with
      | none =>
          exact (scanCells_best_none scanOrder none hscan).2
      | some kc =>
          obtain ⟨k, cd⟩ := kc
          rw [hscan] at h
          cases h

theorem find_unassigned_min {g : Grid} {r c : Nat} {cand : List Nat}
    {mrv : Nat} {deg : Int}
    (h : find_unassigned g = .found r c cand mrv deg) (hm : mrv ≠ 0) :
    mrv = (candidates g r c).length ∧ deg = degree g r c ∧
    ∀ p ∈ scanOrder, g p.1 p.2 = 0 →
      keyLt (keyOf g p.1 p.2) ⟨mrv, -deg, c, r⟩ = false := by
  unfold find_unassigned at h
  cases hscan : scanCells g scanOrder none with
  | zero r' c' d =>
      rw [hscan] at h
      obtain ⟨-, -, -, hmrv, -⟩ := FindResult.found.injEq .. ▸ h
      exact absurd hmrv.symm hm
  | best b =>
      cases b with
      | none => rw [hscan] at h; cases h
      | some kc =>
          obtain ⟨k, cd⟩ := kc
          rw [hscan] at h
          have hgood := scanCells_best_good scanOrder none
            (fun q hq => mem_scanOrder.mp hq) trivial k cd hscan
          obtain ⟨-, -, -, -, hkey, -⟩ := hgood
          obtain ⟨m0, d0, c0, r0⟩ := k
          obtain ⟨hr, hc, -, hmrv, hdeg⟩ := FindResult.found.injEq .. ▸ h
          subst hr; subst hc
          have hk1 : m0 = (candidates g r0 c0).length := congrArg Key.mrv hkey
          have hk2 : d0 = -(degree g r0 c0) := congrArg Key.negdeg hkey
          have hkform : (⟨mrv, -deg, c0, r0⟩ : Key) = ⟨m0, d0, c0, r0⟩ := by
            rw [Key.mk.injEq]
            exact ⟨hmrv.symm, by rw [← hdeg, neg_neg], rfl, rfl⟩
          refine ⟨by rw [← hmrv]; exact hk1, by rw [← hdeg, hk2, neg_neg], ?_⟩
          intro p hp hp0
          obtain ⟨hmin, -⟩ := scanCells_min scanOrder none _ hscan
          obtain ⟨k', cd', hout, hklt⟩ := hmin p hp hp0
          have hkk : k' = ⟨m0, d0, c0, r0⟩ :=
            (congrArg Prod.fst (Option.some.inj hout)).symm
          rw [hkform, ← hkk]
          exact hklt

/-! ## State bookkeeping lemmas -/

@[simp] theorem addTrace_grid (st : SState) (r c mrv : Nat) (deg : Int)
    (v : Nat) : (addTrace st r c mrv deg v).grid = st.grid := by
  unfold addTrace; split <;> rfl

@[simp] theorem commit_grid (st : SState) (r c v : Nat) :
    (commit st r c v).grid = setCell st.grid r c v := rfl

@[simp] theorem tick_grid (st : SState) : (tick st).grid = st.grid := rfl

@[simp] theorem timeoutStop_grid (st : SState) :
    (timeoutStop st).grid = st.grid := rfl

@[simp] theorem addTrace_trace (st : SState) (r c mrv : Nat) (deg : Int)
    (v : Nat) : (addTrace st r c mrv deg v).trace =
      if st.trace.length < 4 then st.trace ++ [⟨r, c, mrv, deg, v⟩]
      else st.trace := by
  unfold addTrace; split <;> rfl

@[simp] theorem commit_trace (st : SState) (r c v : Nat) :
    (commit st r c v).trace = st.trace := rfl

@[simp] theorem tick_trace (st : SState) : (tick st).trace = st.trace := rfl

@[simp] theorem timeoutStop_trace (st : SState) :
    (timeoutStop st).trace = st.trace := rfl

theorem setCell_setCell_cancel {g : Grid} {r c : Nat} (v : Nat)
    (h0 : g r c = 0) : setCell (setCell g r c v) r c 0 = g := by
  funext a b
  by_cases hab : (a, b) = (r, c)
  · obtain ⟨rfl, rfl⟩ := Prod.mk.injEq .. ▸ hab
    rw [setCell_self, h0]
  · rw [setCell_ne _ _ _ _ hab, setCell_ne _ _ _ _ hab]

/-! ## The grid is fully restored whenever backtrack fails -/

theorem tryVals_false_grid (tmo : Nat → Bool)
    (bt : SState → Option (Bool × SState))
    (hbt : ∀ st st', bt st = some (false, st') → st'.grid = st.grid)
    (r c mrv : Nat) (deg : Int) :
    ∀ (vals : List Nat) (st st' : SState), st.grid r c = 0 →
      tryVals tmo bt r c mrv deg vals st = some (false, st') →
      st'.grid = st.grid := by
  intro vals
  induction vals with
  | nil =>
      intro st st' h0 h
      simp only [tryVals, Option.some.injEq, Prod.mk.injEq, true_and] at h
      rw [← h]
  | cons v vs ih =>
      intro st st' h0 h
      simp only [tryVals] at h
      by_cases hv : is_valid st.grid r c v = true
      · rw [if_pos hv] at h
        cases hb : bt (commit (addTrace st r c mrv deg v) r c v) with
        | none => rw [hb] at h; cases h
        | some p =>
            obtain ⟨bres, st3⟩ := p
            rw [hb] at h
            cases bres with
            | true => simp at h
            | false =>
                simp only at h
                have h3 : st3.grid = setCell st.grid r c v := by
                  rw [hbt _ _ hb, commit_grid, addTrace_grid]
                have h4 : (commit st3 r c 0).grid = st.grid := by
                  rw [commit_grid, h3, setCell_setCell_cancel v h0]
                by_cases ht : tmo (commit st3 r c 0).checks = true
                · rw [if_pos ht] at h
                  simp only [Option.some.injEq, Prod.mk.injEq, true_and] at h
                  rw [← h, timeoutStop_grid, h4]
                · rw [if_neg ht] at h
                  have h5 : (tick (commit st3 r c 0)).grid r c = 0 := by
                    rw [tick_grid, h4]; exact h0
                  rw [ih _ _ h5 h, tick_grid, h4]
      · rw [if_neg hv] at h
        exact ih st st' h0 h

theorem backtrack_false_grid (tmo : Nat → Bool) :
    ∀ (fuel : Nat) (st st' : SState),
      backtrack tmo fuel st = some (false, st') → st'.grid = st.grid := by
  intro fuel
  induction fuel with
  | zero => intro st st' h; cases h
  | succ fuel ih =>
      intro st st' h
      simp only [backtrack] at h
      by_cases ht : tmo st.checks = true
      · rw [if_pos ht] at h
        simp only [Option.some.injEq, Prod.mk.injEq, true_and] at h
        rw [← h, timeoutStop_grid]
      · rw [if_neg ht] at h
        cases hf : find_unassigned (tick st).grid with
        | allFilled => rw [hf] at h; simp at h
        | found r c cand mrv deg =>
            rw [hf] at h
            obtain ⟨-, -, hrc0, -⟩ := find_unassigned_found hf
            exact tryVals_false_grid tmo (backtrack tmo fuel) ih r c mrv deg
              cand (tick st) st' hrc0 h

/-! ## Counting empty cells: the termination measure -/

theorem countEmpty_le (g : Grid) : countEmpty g ≤ 81 := by
  have h1 : (scanOrder.filter (fun p => decide (g p.1 p.2 = 0))).length ≤
      scanOrder.length := List.length_filter_le _ _
  have h2 : scanOrder.length = 81 := by decide
  unfold countEmpty
  omega

theorem filter_length_set (g : Grid) (r c v : Nat) (h0 : g r c = 0)
    (hv : v ≠ 0) :
    ∀ l : List Var, l.Nodup → (r, c) ∈ l →
      ((l.filter (fun p => decide (setCell g r c v p.1 p.2 = 0))).length) + 1 =
      (l.filter (fun p => decide (g p.1 p.2 = 0))).length := by
  intro l
  induction l with
  | nil => intro _ hm; simp at hm
  | cons q l ih =>
      intro hnd hm
      obtain ⟨hq, hnd'⟩ := List.nodup_cons.mp hnd
      rcases List.mem_cons.mp hm with heq | hm'
      · subst heq
        have htail : l.filter (fun p => decide (setCell g r c v p.1 p.2 = 0)) =
            l.filter (fun p => decide (g p.1 p.2 = 0)) := by
          apply List.filter_congr
          intro p hp
          have hne : (p.1, p.2) ≠ (r, c) := by
            rw [Prod.mk.eta]
            intro he
            exact hq (he ▸ hp)
          rw [setCell_ne _ _ _ _ hne]
        simp only [List.filter_cons]
        have hsgv : decide (setCell g r c v r c = 0) = false := by
          simp [setCell_self, hv]
        have hgv : decide (g r c = 0) = true := by simp [h0]
        rw [hsgv, hgv, htail]
        simp
      · have hne : ((q.1 : Nat), (q.2 : Nat)) ≠ (r, c) := by
          rw [Prod.mk.eta]
          intro he
          exact hq (he ▸ hm')
        simp only [List.filter_cons]
        rw [setCell_ne _ _ _ _ hne]
        cases hgq : decide (g q.1 q.2 = 0) <;>
          simpa [hgq] using ih hnd' hm'

theorem countEmpty_setCell {g : Grid} {r c : Nat} (v : Nat) (hr : r < 9)
    (hc : c < 9) (h0 : g r c = 0) (hv : v ≠ 0) :
    countEmpty (setCell g r c v) + 1 = countEmpty g :=
  filter_length_set g r c v h0 hv scanOrder scanOrder_nodup
    (mem_scanOrder.mpr ⟨hr, hc⟩)

/-! ## backtrack always returns within the fuel bound (termination) -/

theorem tryVals_isSome (tmo : Nat → Bool)
    (bt : SState → Option (Bool × SState)) (fuel : Nat)
    (hbt : ∀ st, countEmpty st.grid < fuel → (bt st).isSome)
    (hbtf : ∀ st st', bt st = some (false, st') → st'.grid = st.grid)
    (r c mrv : Nat) (deg : Int) (hr : r < 9) (hc : c < 9) :
    ∀ (vals : List Nat) (st : SState), st.grid r c = 0 →
      (∀ v ∈ vals, v ≠ 0) → countEmpty st.grid ≤ fuel →
      (tryVals tmo bt r c mrv deg vals st).isSome := by
  intro vals
  induction vals with
  | nil => intro st _ _ _; simp [tryVals]
  | cons v vs ih =>
      intro st h0 hvz hle
      simp only [tryVals]
      by_cases hv : is_valid st.grid r c v = true
      · rw [if_pos hv]
        have hv0 : v ≠ 0 := hvz v (List.mem_cons_self _ _)
        have hgrid2 : (commit (addTrace st r c mrv deg v) r c v).grid =
            setCell st.grid r c v := by rw [commit_grid, addTrace_grid]
        have hcount2 :
            countEmpty (commit (addTrace st r c mrv deg v) r c v).grid < fuel := by
          rw [hgrid2]
          have := countEmpty_setCell v hr hc h0 hv0 (g := st.grid)
          omega
        have hsome := hbt _ hcount2
        cases hb : bt (commit (addTrace st r c mrv deg v) r c v) with
        | none => rw [hb] at hsome; cases hsome
        | some p =>
            obtain ⟨bres, st3⟩ := p
            cases bres with
            | true => simp
            | false =>
                simp only
                by_cases ht : tmo (commit st3 r c 0).checks = true
                · rw [if_pos ht]; simp
                · rw [if_neg ht]
                  have h3 : st3.grid = setCell st.grid r c v := by
                    rw [hbtf _ _ hb, hgrid2]
                  have h4 : (tick (commit st3 r c 0)).grid = st.grid := by
                    rw [tick_grid, commit_grid, h3, setCell_setCell_cancel v h0]
                  apply ih
                  · rw [h4]; exact h0
                  · exact fun w hw => hvz w (List.mem_cons_of_mem _ hw)
                  · rw [h4]; exact hle
      · rw [if_neg hv]
        exact ih st h0 (fun w hw => hvz w (List.mem_cons_of_mem _ hw)) hle

theorem backtrack_isSome (tmo : Nat → Bool) :
    ∀ (fuel : Nat) (st : SState), countEmpty st.grid < fuel →
      (backtrack tmo fuel st).isSome := by
  intro fuel
  induction fuel with
  | zero => intro st h; omega
  | succ fuel ih =>
      intro st hcount
      simp only [backtrack]
      by_cases ht : tmo st.checks = true
      · rw [if_pos ht]; simp
      · rw [if_neg ht]
        cases hf : find_unassigned (tick st).grid with
        | allFilled => simp
        | found r c cand mrv deg =>
            obtain ⟨hr, hc, hrc0, hcand⟩ := find_unassigned_found hf
            exact tryVals_isSome tmo (backtrack tmo fuel) fuel ih
              (backtrack_false_grid tmo fuel) r c mrv deg hr hc cand (tick st)
              hrc0 (fun w hw => by have := hcand w hw; omega)
              (by have : countEmpty (tick st).grid = countEmpty st.grid := rfl
                  omega)

/-! ## Nonzero cells are never overwritten -/

theorem tryVals_preserves_nonzero (tmo : Nat → Bool)
    (bt : SState → Option (Bool × SState))
    (hbt : ∀ st b st', bt st = some (b, st') →
      ∀ a b', st.grid a b' ≠ 0 → st'.grid a b' = st.grid a b')
    (r c mrv : Nat) (deg : Int) :
    ∀ (vals : List Nat) (st : SState) (bres : Bool) (st' : SState),
      st.grid r c = 0 →
      tryVals tmo bt r c mrv deg vals st = some (bres, st') →
      ∀ a b', st.grid a b' ≠ 0 → st'.grid a b' = st.grid a b' := by
  intro vals
  induction vals with
  | nil =>
      intro st bres st' h0 h a b' hnz
      simp only [tryVals, Option.some.injEq, Prod.mk.injEq] at h
      rw [← h.2]
  | cons v vs ih =>
      intro st bres st' h0 h a b' hnz
      simp only [tryVals] at h
      by_cases hv : is_valid st.grid r c v = true
      · rw [if_pos hv] at h
        have hab : ((a : Nat), (b' : Nat)) ≠ (r, c) := by
          intro he
          obtain ⟨rfl, rfl⟩ := Prod.mk.injEq .. ▸ he
          exact hnz h0
        have hgrid2 : (commit (addTrace st r c mrv deg v) r c v).grid a b' =
            st.grid a b' := by
          rw [commit_grid, addTrace_grid, setCell_ne _ _ _ _ hab]
        cases hb : bt (commit (addTrace st r c mrv deg v) r c v) with
        | none => rw [hb] at h; cases h
        | some p =>
            obtain ⟨bres3, st3⟩ := p
            rw [hb] at h
            have h3 : st3.grid a b' = st.grid a b' := by
              rw [hbt _ _ _ hb a b' (by rw [hgrid2]; exact hnz), hgrid2]
            cases bres3 with
            | true =>
                simp only [Option.some.injEq, Prod.mk.injEq] at h
                rw [← h.2, h3]
            | false =>
                simp only at h
                have h4 : (commit st3 r c 0).grid a b' = st.grid a b' := by
                  rw [commit_grid, setCell_ne _ _ _ _ hab, h3]
                by_cases ht : tmo (commit st3 r c 0).checks = true
                · rw [if_pos ht] at h
                  simp only [Option.some.injEq, Prod.mk.injEq] at h
                  rw [← h.2, timeoutStop_grid, h4]
                · rw [if_neg ht] at h
                  have h5 : (tick (commit st3 r c 0)).grid r c = 0 := by
                    rw [tick_grid, commit_grid, setCell_self]
                  have h6 := ih _ _ _ h5 h a b'
                    (by rw [tick_grid, h4]; exact hnz)
                  rw [h6, tick_grid, h4]
      · rw [if_neg hv] at h
        exact ih _ _ _ h0 h a b' hnz

theorem backtrack_preserves_nonzero (tmo : Nat → Bool) :
    ∀ (fuel : Nat) (st : SState) (b : Bool) (st' : SState),
      backtrack tmo fuel st = some (b, st') →
      ∀ a b', st.grid a b' ≠ 0 → st'.grid a b' = st.grid a b' := by
  intro fuel
  induction fuel with
  | zero => intro st b st' h; cases h
  | succ fuel ih =>
      intro st b st' h a b' hnz
      simp only [backtrack] at h
      by_cases ht : tmo st.checks = true
      · rw [if_pos ht] at h
        simp only [Option.some.injEq, Prod.mk.injEq] at h
        rw [← h.2, timeoutStop_grid]
      · rw [if_neg ht] at h
        cases hf : find_unassigned (tick st).grid with
        | allFilled =>
            rw [hf] at h
            simp only [Option.some.injEq, Prod.mk.injEq] at h
            rw [← h.2, tick_grid]
        | found r c cand mrv deg =>
            rw [hf] at h
            obtain ⟨-, -, hrc0, -⟩ := find_unassigned_found hf
            exact tryVals_preserves_nonzero tmo (backtrack tmo fuel) ih
              r c mrv deg cand (tick st) b st' hrc0 h a b' hnz

/-! ## Conflict freedom is preserved by validated placements -/

theorem sameUnit_symm {p q : Var} (h : sameUnit p q) : sameUnit q p := by
  unfold sameUnit at *
  rcases h with h | h | ⟨h1, h2⟩
  exacts [Or.inl h.symm, Or.inr (Or.inl h.symm), Or.inr (Or.inr ⟨h1.symm, h2.symm⟩)]

theorem conflictFree_setCell {g : Grid} {r c v : Nat}
    (hcf : conflictFree g) (hval : is_valid g r c v = true) :
    conflictFree (setCell g r c v) := by
  intro p hp q hq hpq hunit hnz
  obtain ⟨hp1, hp2⟩ := mem_scanOrder.mp hp
  obtain ⟨hq1, hq2⟩ := mem_scanOrder.mp hq
  by_cases hpe : p = (r, c) <;> by_cases hqe : q = (r, c)
  · exact absurd (hpe.trans hqe.symm) hpq
  · subst hpe
    have hqq : ((q.1 : Nat), (q.2 : Nat)) ≠ (r, c) := by
      rw [Prod.mk.eta]; exact hqe
    rw [show ((r, c).1 : Nat) = r from rfl, show ((r, c).2 : Nat) = c from rfl,
      setCell_self, setCell_ne _ _ _ _ hqq]
    intro he
    exact is_valid_peer hval hq1 hq2 hunit he.symm
  · subst hqe
    have hpp : ((p.1 : Nat), (p.2 : Nat)) ≠ (r, c) := by
      rw [Prod.mk.eta]; exact hpe
    rw [show ((r, c).1 : Nat) = r from rfl, show ((r, c).2 : Nat) = c from rfl,
      setCell_self, setCell_ne _ _ _ _ hpp]
    exact is_valid_peer hval hp1 hp2 (sameUnit_symm hunit)
  · have hpp : ((p.1 : Nat), (p.2 : Nat)) ≠ (r, c) := by
      rw [Prod.mk.eta]; exact hpe
    have hqq : ((q.1 : Nat), (q.2 : Nat)) ≠ (r, c) := by
      rw [Prod.mk.eta]; exact hqe
    rw [setCell_ne _ _ _ _ hpp, setCell_ne _ _ _ _ hqq]
    rw [setCell_ne _ _ _ _ hpp] at hnz
    exact hcf p hp q hq hpq hunit hnz

theorem valuesInRange_setCell {g : Grid} {r c v : Nat}
    (hg : valuesInRange g) (hv : v ≤ 9) : valuesInRange (setCell g r c v) := by
  intro p hp
  show (if p.1 = r ∧ p.2 = c then v else g p.1 p.2) ≤ 9
  split
  · exact hv
  · exact hg p hp

/-! ## Validity of the grid whenever backtrack succeeds -/

theorem tryVals_valid (tmo : Nat → Bool)
    (bt : SState → Option (Bool × SState))
    (hbtf : ∀ st st', bt st = some (false, st') → st'.grid = st.grid)
    (hbt : ∀ st st', bt st = some (true, st') →
      conflictFree st.grid → valuesInRange st.grid →
      conflictFree st'.grid ∧ valuesInRange st'.grid ∧ gridComplete st'.grid)
    (r c mrv : Nat) (deg : Int) :
    ∀ (vals : List Nat) (st st' : SState), st.grid r c = 0 →
      (∀ v ∈ vals, 1 ≤ v ∧ v ≤ 9) →
      conflictFree st.grid → valuesInRange st.grid →
      tryVals tmo bt r c mrv deg vals st = some (true, st') →
      conflictFree st'.grid ∧ valuesInRange st'.grid ∧ gridComplete st'.grid := by
  intro vals
  induction vals with
  | nil =>
      intro st st' h0 hvr hcf hrange h
      simp [tryVals] at h
  | cons v vs ih =>
      intro st st' h0 hvr hcf hrange h
      simp only [tryVals] at h
      by_cases hv : is_valid st.grid r c v = true
      · rw [if_pos hv] at h
        have hvb := hvr v (List.mem_cons_self _ _)
        have hgrid2 : (commit (addTrace st r c mrv deg v) r c v).grid =
            setCell st.grid r c v := by rw [commit_grid, addTrace_grid]
        cases hb : bt (commit (addTrace st r c mrv deg v) r c v) with
        | none => rw [hb] at h; cases h
        | some p =>
            obtain ⟨bres3, st3⟩ := p
            rw [hb] at h
            cases bres3 with
            | true =>
                simp only [Option.some.injEq, Prod.mk.injEq, true_and] at h
                subst h
                exact hbt _ _ hb
                  (by rw [hgrid2]
                      exact conflictFree_setCell hcf hv)
                  (by rw [hgrid2]
                      exact valuesInRange_setCell hrange (by omega))
            | false =>
                simp only at h
                by_cases ht : tmo (commit st3 r c 0).checks = true
                · rw [if_pos ht] at h
                  simp at h
                · rw [if_neg ht] at h
                  have h3 : st3.grid = setCell st.grid r c v := by
                    rw [hbtf _ _ hb, hgrid2]
                  have h4 : (tick (commit st3 r c 0)).grid = st.grid := by
                    rw [tick_grid, commit_grid, h3, setCell_setCell_cancel v h0]
                  refine ih _ _ ?_ (fun w hw => hvr w (List.mem_cons_of_mem _ hw))
                    ?_ ?_ h
                  · rw [h4]; exact h0
                  · rw [h4]; exact hcf
                  · rw [h4]; exact hrange
      · rw [if_neg hv] at h
        exact ih _ _ h0 (fun w hw => hvr w (List.mem_cons_of_mem _ hw))
          hcf hrange h

theorem backtrack_valid (tmo : Nat → Bool) :
    ∀ (fuel : Nat) (st st' : SState),
      backtrack tmo fuel st = some (true, st') →
      conflictFree st.grid → valuesInRange st.grid →
      conflictFree st'.grid ∧ valuesInRange st'.grid ∧ gridComplete st'.grid := by
  intro fuel
  induction fuel with
  | zero => intro st st' h; cases h
  | succ fuel ih =>
      intro st st' h hcf hrange
      simp only [backtrack] at h
      by_cases ht : tmo st.checks = true
      · rw [if_pos ht] at h
        simp at h
      · rw [if_neg ht] at h
        cases hf : find_unassigned (tick st).grid with
        | allFilled =>
            rw [hf] at h
            simp only [Option.some.injEq, Prod.mk.injEq, true_and] at h
            subst h
            exact ⟨hcf, hrange, find_unassigned_allFilled hf⟩
        | found r c cand mrv deg =>
            rw [hf] at h
            obtain ⟨-, -, hrc0, hcand⟩ := find_unassigned_found hf
            exact tryVals_valid tmo (backtrack tmo fuel)
              (backtrack_false_grid tmo fuel)
              (fun s s' hh => ih s s' hh) r c mrv deg cand (tick st) st'
              hrc0 hcand hcf hrange h

/-! ## From the invariants to full Sudoku validity -/

theorem unit_facts : ∀ u ∈ allUnits, u.length = 9 ∧ u.Nodup ∧
    (∀ p ∈ u, p ∈ scanOrder) ∧ (∀ p ∈ u, ∀ q ∈ u, sameUnit p q) := by decide

theorem validSolution_of_inv {g : Grid} (hcf : conflictFree g)
    (hrange : valuesInRange g) (hcomp : gridComplete g) : validSolution g := by
  intro u hu
  obtain ⟨hlen, hnd, hsub, hsame⟩ := unit_facts u hu
  have hvals_nodup : (unitVals g u).Nodup := by
    unfold unitVals
    refine List.Nodup.map_on ?_ hnd
    intro x hx y hy hxy
    by_contra hne
    exact hcf x (hsub x hx) y (hsub y hy) hne (hsame x hx y hy)
      (hcomp x (hsub x hx)) hxy
  have hsubset : unitVals g u ⊆ oneTo9 := by
    intro w hw
    obtain ⟨p, hp, rfl⟩ := List.mem_map.mp hw
    have h1 := hcomp p (hsub p hp)
    have h2 := hrange p (hsub p hp)
    show g p.1 p.2 ∈ oneTo9
    unfold oneTo9
    simp only [List.mem_cons, List.not_mem_nil, or_false]
    omega
  have hlen' : (unitVals g u).length = 9 := by
    unfold unitVals; rw [List.length_map, hlen]
  have hsp := List.subperm_of_subset hvals_nodup hsubset
  exact hsp.perm_of_length_le (by rw [hlen']; decide)

/-! ## The trace never exceeds four entries -/

theorem addTrace_length {st : SState} (r c mrv : Nat) (deg : Int) (v : Nat)
    (h : st.trace.length ≤ 4) :
    (addTrace st r c mrv deg v).trace.length ≤ 4 := by
  rw [addTrace_trace]
  split
  · rw [List.length_append]
    simp only [List.length_singleton]
    omega
  · exact h

theorem tryVals_trace_le (tmo : Nat → Bool)
    (bt : SState → Option (Bool × SState))
    (hbt : ∀ st b st', bt st = some (b, st') →
      st.trace.length ≤ 4 → st'.trace.length ≤ 4)
    (r c mrv : Nat) (deg : Int) :
    ∀ (vals : List Nat) (st : SState) (b : Bool) (st' : SState),
      tryVals tmo bt r c mrv deg vals st = some (b, st') →
      st.trace.length ≤ 4 → st'.trace.length ≤ 4 := by
  intro vals
  induction vals with
  | nil =>
      intro st b st' h hlen
      simp only [tryVals, Option.some.injEq, Prod.mk.injEq] at h
      rw [← h.2]
      exact hlen
  | cons v vs ih =>
      intro st b st' h hlen
      simp only [tryVals] at h
      by_cases hv : is_valid st.grid r c v = true
      · rw [if_pos hv] at h
        have hlen2 : (commit (addTrace st r c mrv deg v) r c v).trace.length ≤ 4 := by
          rw [commit_trace]
          exact addTrace_length r c mrv deg v hlen
        cases hb : bt (commit (addTrace st r c mrv deg v) r c v) with
        | none => rw [hb] at h; cases h
        | some p =>
            obtain ⟨bres3, st3⟩ := p
            rw [hb] at h
            have hlen3 : st3.trace.length ≤ 4 := hbt _ _ _ hb hlen2
            cases bres3 with
            | true =>
                simp only [Option.some.injEq, Prod.mk.injEq] at h
                rw [← h.2]
                exact hlen3
            | false =>
                simp only at h
                by_cases ht : tmo (commit st3 r c 0).checks = true
                · rw [if_pos ht] at h
                  simp only [Option.some.injEq, Prod.mk.injEq] at h
                  rw [← h.2, timeoutStop_trace, commit_trace]
                  exact hlen3
                · rw [if_neg ht] at h
                  refine ih _ _ _ h ?_
                  rw [tick_trace, commit_trace]
                  exact hlen3
      · rw [if_neg hv] at h
        exact ih _ _ _ h hlen

theorem backtrack_trace_le (tmo : Nat → Bool) :
    ∀ (fuel : Nat) (st : SState) (b : Bool) (st' : SState),
      backtrack tmo fuel st = some (b, st') →
      st.trace.length ≤ 4 → st'.trace.length ≤ 4 := by
  intro fuel
  induction fuel with
  | zero => intro st b st' h; cases h
  | succ fuel ih =>
      intro st b st' h hlen
      simp only [backtrack] at h
      by_cases ht : tmo st.checks = true
      · rw [if_pos ht] at h
        simp only [Option.some.injEq, Prod.mk.injEq] at h
        rw [← h.2, timeoutStop_trace]
        exact hlen
      · rw [if_neg ht] at h
        cases hf : find_unassigned (tick st).grid with
        | allFilled =>
            rw [hf] at h
            simp only [Option.some.injEq, Prod.mk.injEq] at h
            rw [← h.2, tick_trace]
            exact hlen
        | found r c cand mrv deg =>
            rw [hf] at h
            exact tryVals_trace_le tmo (backtrack tmo fuel) ih
              r c mrv deg cand (tick st) b st' h hlen

/-! ## Heap frame lemmas: solve writes only the rows the constructor
    allocated -/

@[simp] theorem haddTrace_heap (st : HS) (r c mrv : Nat) (deg : Int)
    (v : Nat) : (haddTrace st r c mrv deg v).heap = st.heap := by
  unfold haddTrace; split <;> rfl

@[simp] theorem hcommit_heap (st : HS) (ids : List Nat) (r c v : Nat) :
    (hcommit st ids r c v).heap = writeCell st.heap ids r c v := rfl

@[simp] theorem htick_heap (st : HS) : (htick st).heap = st.heap := rfl

@[simp] theorem htimeoutStop_heap (st : HS) :
    (htimeoutStop st).heap = st.heap := rfl

theorem getD_mem {l : List Nat} {n : Nat} (h : n < l.length) (d : Nat) :
    l.getD n d ∈ l := by
  rw [List.getD_eq_getElem?_getD, List.getElem?_eq_getElem h]
  exact List.getElem_mem h

theorem writeCell_frame {h : Heap} {ids : List Nat} {r c v i : Nat}
    (hlen : ids.length = 9) (hr : r < 9) (hi : i ∉ ids) :
    (writeCell h ids r c v).store i = h.store i := by
  have hmem : ids.getD r 0 ∈ ids := getD_mem (by omega) 0
  have hne : i ≠ ids.getD r 0 := fun he => hi (he ▸ hmem)
  simp only [writeCell]
  rw [if_neg hne]

theorem heapTryVals_frame (tmo : Nat → Bool) (ids : List Nat)
    (bt : HS → Option (Bool × HS)) (hlen : ids.length = 9)
    (hbt : ∀ st b st', bt st = some (b, st') →
      ∀ i ∉ ids, st'.heap.store i = st.heap.store i)
    (r c mrv : Nat) (deg : Int) (hr : r < 9) :
    ∀ (vals : List Nat) (st : HS) (b : Bool) (st' : HS),
      heapTryVals tmo ids bt r c mrv deg vals st = some (b, st') →
      ∀ i ∉ ids, st'.heap.store i = st.heap.store i := by
  intro vals
  induction vals with
  | nil =>
      intro st b st' h i hi
      simp only [heapTryVals, Option.some.injEq, Prod.mk.injEq] at h
      rw [← h.2]
  | cons v vs ih =>
      intro st b st' h i hi
      simp only [heapTryVals] at h
      by_cases hv : is_valid (heapGrid st.heap ids) r c v = true
      · rw [if_pos hv] at h
        have hw2 : (hcommit (haddTrace st r c mrv deg v) ids r c v).heap.store i
            = st.heap.store i := by
          rw [hcommit_heap, writeCell_frame hlen hr hi, haddTrace_heap]
        cases hb : bt (hcommit (haddTrace st r c mrv deg v) ids r c v) with
        | none => rw [hb] at h; cases h
        | some p =>
            obtain ⟨b3, st3⟩ := p
            rw [hb] at h
            have h3 : st3.heap.store i = st.heap.store i := by
              rw [hbt _ _ _ hb i hi, hw2]
            cases b3 with
            | true =>
                simp only [Option.some.injEq, Prod.mk.injEq] at h
                rw [← h.2, h3]
            | false =>
                simp only at h
                have h4 : (hcommit st3 ids r c 0).heap.store i =
                    st.heap.store i := by
                  rw [hcommit_heap, writeCell_frame hlen hr hi, h3]
                by_cases ht : tmo (hcommit st3 ids r c 0).checks = true
                · rw [if_pos ht] at h
                  simp only [Option.some.injEq, Prod.mk.injEq] at h
                  rw [← h.2, htimeoutStop_heap, h4]
                · rw [if_neg ht] at h
                  rw [ih _ _ _ h i hi, htick_heap, h4]
      · rw [if_neg hv] at h
        exact ih _ _ _ h i hi

theorem heapBacktrack_frame (tmo : Nat → Bool) (ids : List Nat)
    (hlen : ids.length = 9) :
    ∀ (fuel : Nat) (st : HS) (b : Bool) (st' : HS),
      heapBacktrack tmo ids fuel st = some (b, st') →
      ∀ i ∉ ids, st'.heap.store i = st.heap.store i := by
  intro fuel
  induction fuel with
  | zero => intro st b st' h; cases h
  | succ fuel ih =>
      intro st b st' h i hi
      simp only [heapBacktrack] at h
      by_cases ht : tmo st.checks = true
      · rw [if_pos ht] at h
        simp only [Option.some.injEq, Prod.mk.injEq] at h
        rw [← h.2, htimeoutStop_heap]
      · rw [if_neg ht] at h
        cases hf : find_unassigned (heapGrid (htick st).heap ids) with
        | allFilled =>
            rw [hf] at h
            simp only [Option.some.injEq, Prod.mk.injEq] at h
            rw [← h.2, htick_heap]
        | found r c cand mrv deg =>
            rw [hf] at h
            obtain ⟨hr, -, -, -⟩ := find_unassigned_found hf
            exact heapTryVals_frame tmo ids (heapBacktrack tmo ids fuel) hlen
              ih r c mrv deg hr cand (htick st) b st' h i hi

/-! ## The defensive copy allocates only fresh rows -/

theorem copyRows_preserves (i : Nat) :
    ∀ (rids : List Nat) (h : Heap), i < h.next →
      ((copyRows h rids).1).store i = h.store i := by
  intro rids
  induction rids with
  | nil => intro h _; rfl
  | cons rid rest ih =>
      intro h hi
      simp only [copyRows]
      have hnext : (alloc h (h.store rid)).1.next = h.next + 1 := rfl
      have h2 : (alloc h (h.store rid)).1.store i = h.store i := by
        simp only [alloc]
        rw [if_neg (by omega)]
      rw [ih (alloc h (h.store rid)).1 (by omega), h2]

theorem copyRows_fresh :
    ∀ (rids : List Nat) (h : Heap) (n : Nat),
      n ∈ (copyRows h rids).2 → h.next ≤ n := by
  intro rids
  induction rids with
  | nil => intro h n hn; simp [copyRows] at hn
  | cons rid rest ih =>
      intro h n hn
      simp only [copyRows, List.mem_cons] at hn
      rcases hn with rfl | hn
      · exact Nat.le_refl _
      · have h1 := ih (alloc h (h.store rid)).1 n hn
        have h2 : (alloc h (h.store rid)).1.next = h.next + 1 := rfl
        omega

theorem copyRows_length :
    ∀ (rids : List Nat) (h : Heap),
      (copyRows h rids).2.length = rids.length := by
  intro rids
  induction rids with
  | nil => intro h; rfl
  | cons rid rest ih => intro h; simp [copyRows, ih]

/-! ## The prune trail restores the domains exactly -/

theorem fcLoop_cons_prune (a : Assignments) (val : Nat) (n : Var)
    (rest : List Var) (doms : Domains) (pruned : List (Var × Nat))
    (ha : ¬ (a n).isSome = true) (hm : val ∈ doms n) :
    fcLoop a val (n :: rest) doms pruned =
      if (updateDom doms n ((doms n).erase val) n).card = 0 then
        (none, FCState.restore ⟨pruned ++ [(n, val)]⟩
          (updateDom doms n ((doms n).erase val)))
      else
        fcLoop a val rest (updateDom doms n ((doms n).erase val))
          (pruned ++ [(n, val)]) := by
  simp only [fcLoop, if_neg ha, if_pos hm]

theorem restore_snoc (doms : Domains) (pruned : List (Var × Nat))
    (n : Var) (val : Nat) (hm : val ∈ doms n) :
    FCState.restore ⟨pruned ++ [(n, val)]⟩
      (updateDom doms n ((doms n).erase val)) =
    FCState.restore ⟨pruned⟩ doms := by
  unfold FCState.restore
  simp only [List.reverse_append, List.reverse_cons, List.reverse_nil,
    List.nil_append, List.singleton_append, List.foldl_cons]
  have hf : updateDom (updateDom doms n ((doms n).erase val)) n
      (insert val (updateDom doms n ((doms n).erase val) n)) = doms := by
    funext w
    by_cases hw : w = n
    · subst hw
      show (if w = w then insert val (updateDom doms w ((doms w).erase val) w)
        else _) = doms w
      rw [if_pos rfl]
      show insert val (if w = w then (doms w).erase val else doms w) = doms w
      rw [if_pos rfl]
      exact Finset.insert_erase hm
    · show (if w = n then _ else updateDom doms n ((doms n).erase val) w) = doms w
      rw [if_neg hw]
      show (if w = n then _ else doms w) = doms w
      rw [if_neg hw]
  rw [hf]

theorem fcLoop_restore (a : Assignments) (val : Nat) :
    ∀ (ns : List Var) (doms : Domains) (pruned : List (Var × Nat)),
      (∀ s d', fcLoop a val ns doms pruned = (some s, d') →
        FCState.restore s d' = FCState.restore ⟨pruned⟩ doms)
      ∧ (∀ d', fcLoop a val ns doms pruned = (none, d') →
        d' = FCState.restore ⟨pruned⟩ doms) := by
  intro ns
  induction ns with
  | nil =>
      intro doms pruned
      constructor
      · intro s d' h
        simp only [fcLoop, Prod.mk.injEq, Option.some.injEq] at h
        rw [← h.1, ← h.2]
      · intro d' h
        simp only [fcLoop, Prod.mk.injEq] at h
        cases h.1
  | cons n rest ih =>
      intro doms pruned
      by_cases ha : (a n).isSome = true
      · have he : fcLoop a val (n :: rest) doms pruned =
            fcLoop a val rest doms pruned := by
          simp only [fcLoop, if_pos ha]
        rw [he]
        exact ih doms pruned
      · by_cases hm : val ∈ doms n
        · rw [fcLoop_cons_prune a val n rest doms pruned ha hm]
          by_cases hc : (updateDom doms n ((doms n).erase val) n).card = 0
          · rw [if_pos hc]
            constructor
            · intro s d' h
              cases (Prod.mk.injEq .. ▸ h).1
            · intro d' h
              have h2 := (Prod.mk.injEq .. ▸ h).2
              rw [← h2, restore_snoc doms pruned n val hm]
          · rw [if_neg hc]
            obtain ⟨ihs, ihn⟩ := ih (updateDom doms n ((doms n).erase val))
              (pruned ++ [(n, val)])
            constructor
            · intro s d' h
              rw [ihs s d' h, restore_snoc doms pruned n val hm]
            · intro d' h
              rw [ihn d' h, restore_snoc doms pruned n val hm]
        · have he : fcLoop a val (n :: rest) doms pruned =
              fcLoop a val rest doms pruned := by
            simp only [fcLoop, if_neg ha, if_neg hm]
          rw [he]
          exact ih doms pruned

theorem restore_nil (doms : Domains) :
    FCState.restore ⟨[]⟩ doms = doms := rfl

/-- The run of `solve` on the one-blank board: solved, one trace entry. -/
theorem solve_g1 : solve tmoF (toGrid g1L) = some (true, st1) := rfl

/-! ## Claims -/

/-- C1 (counterexample): on the board with blanks at (0,1) and (1,0),
    the two cells tie on MRV (both 1) and degree (both 1), the
    row-major index of (0,1) is smaller than that of (1,0), yet
    `find_unassigned` selects (1,0).  The final tie-break therefore does
    not follow the row-major index: the column is compared before the
    row. -/
theorem find_unassigned_rowmajor_cex :
    find_unassigned (toGrid cexG1L) = .found 1 0 [4] 1 1
    ∧ toGrid cexG1L 0 1 = 0
    ∧ (candidates (toGrid cexG1L) 0 1).length = 1
    ∧ (candidates (toGrid cexG1L) 1 0).length = 1
    ∧ degree (toGrid cexG1L) 0 1 = 1
    ∧ degree (toGrid cexG1L) 1 0 = 1
    ∧ row_major_index (0, 1) < row_major_index (1, 0) := by
  exact ⟨rfl, rfl, rfl, rfl, rfl, rfl, by decide⟩

/-- C1 (amended): among unassigned cells that tie on both MRV
    (nonzero minimum domain size) and degree, `find_unassigned` selects
    the cell with the smaller column, breaking a column tie by the
    smaller row (the key it minimises is `(mrv, -degree, col, row)`). -/
theorem find_unassigned_col_row_tiebreak (g : Grid) (r c : Nat)
    (cand : List Nat) (mrv : Nat) (deg : Int) (r' c' : Nat)
    (h : find_unassigned g = .found r c cand mrv deg) (hm : mrv ≠ 0)
    (hr' : r' < 9) (hc' : c' < 9) (hempty : g r' c' = 0)
    (hne : (r', c') ≠ ((r, c) : Var))
    (hmrv : (candidates g r' c').length = mrv)
    (hdeg : degree g r' c' = deg) :
    c < c' ∨ (c = c' ∧ r < r') := by
  obtain ⟨hmrv0, hdeg0, hmin⟩ := find_unassigned_min h hm
  have hk := hmin (r', c') (mem_scanOrder.mpr ⟨hr', hc'⟩) hempty
  have hkey' : keyOf g r' c' = ⟨mrv, -deg, c', r'⟩ := by
    unfold keyOf
    rw [Key.mk.injEq]
    exact ⟨hmrv, by rw [hdeg], rfl, rfl⟩
  rw [hkey'] at hk
  rw [Bool.eq_false_iff, ne_eq, keyLt_iff] at hk
  dsimp only at hk
  have hne' : ¬ (r' = r ∧ c' = c) := fun hpair => hne (by rw [hpair.1, hpair.2])
  omega

/-- C1 (witness for the amended theorem): on the two-blank board the
    selected cell (1,0) beats the tied cell (0,1) on the
    column-before-row order. -/
theorem find_unassigned_col_row_tiebreak_witness :
    (0 : Nat) < 1 ∨ ((0 : Nat) = 1 ∧ (1 : Nat) < 0) :=
  find_unassigned_col_row_tiebreak (toGrid cexG1L) 1 0 [4] 1 1 0 1
    rfl (by decide) (by decide) (by decide) rfl (by decide) rfl rfl

/-- C2 (counterexample): the fully filled board `dupL` carries two 1s in
    row 0 (conflicting givens), yet `solve` reports `solved = True` and
    leaves the board unchanged, so an output row is not a permutation of
    1..9. -/
theorem solve_valid_claim_cex :
    (solve tmoF (toGrid dupL)).map
        (fun p => (p.1, gridEqB p.2.grid (toGrid dupL))) = some (true, true)
    ∧ ¬ validSolution (toGrid dupL)
    ∧ toGrid dupL 0 0 = 1 ∧ toGrid dupL 0 1 = 1 := by
  exact ⟨rfl, by decide, rfl, rfl⟩

/-- C2 (amended): for a 9x9 grid whose values lie in [0,9] and whose
    nonzero givens are mutually non-conflicting, if `solve` returns
    `solved = True` then every row, column and 3x3 box of the resulting
    grid is a permutation of 1..9. -/
theorem solve_true_valid (tmo : Nat → Bool) (g : Grid) (st : SState)
    (hcf : conflictFree g) (hrange : valuesInRange g)
    (h : solve tmo g = some (true, st)) :
    validSolution st.grid := by
  obtain ⟨h1, h2, h3⟩ := backtrack_valid tmo 82 _ st h hcf hrange
  exact validSolution_of_inv h1 h2 h3

set_option maxRecDepth 4000 in
/-- C2 (witness): the one-blank board solves to a valid grid. -/
theorem solve_true_valid_witness : validSolution st1.grid :=
  solve_true_valid tmoF (toGrid g1L) st1 (by decide) (by decide) solve_g1

/-- C3 (counterexample): the board `dupL3` has two 8s in row 4, yet the
    constructor assertion passes (no ImmediateContradiction exists in
    the code) and `solve` runs, even returning `solved = True`. -/
theorem conflicting_givens_accepted :
    initCheck dupL3 = true
    ∧ toGrid dupL3 4 3 = 8 ∧ toGrid dupL3 4 4 = 8
    ∧ (solve tmoF (toGrid dupL3)).map (fun p => p.1) = some true := by
  exact ⟨rfl, rfl, rfl, rfl⟩

/-- C3 (amended): construction checks only that the grid is 9x9; a grid
    with two identical givens in the same row, column or box passes the
    constructor and reaches `solve` (given conflicts are never detected
    at construction). -/
theorem initCheck_shape_only (p : PyGrid) (h9 : p.length = 9)
    (hall : ∀ row ∈ p, row.length = 9) : initCheck p = true := by
  unfold initCheck
  rw [Bool.and_eq_true]
  constructor
  · simp [h9]
  · rw [List.all_eq_true]
    intro row hrow
    simp [hall row hrow]

/-- C3 (witness): the conflicting board `dupL3` passes construction. -/
theorem initCheck_shape_only_witness : initCheck dupL3 = true :=
  initCheck_shape_only dupL3 (by decide) (by decide)

/-- C4: when `forward_check` signals failure (an emptied neighbor
    domain) it has already undone every removal it made in this call:
    the returned domains equal the domains passed in, so callers need
    not roll back. -/
theorem forward_check_fail_restores (a : Assignments) (var : Var)
    (val : Nat) (doms : Domains)
    (h : (forward_check a var val doms).1 = none) :
    (forward_check a var val doms).2 = doms := by
  obtain ⟨-, ihn⟩ := fcLoop_restore a val (NEIGHBORS var) doms []
  have h2 : forward_check a var val doms =
      (none, (forward_check a var val doms).2) := by
    rw [← h]
  have h3 := ihn (forward_check a var val doms).2 h2
  rw [h3, restore_nil]

/-- C4 (witness): removing 5 empties the domain of neighbor (0,1), and
    the domains come back unchanged. -/
theorem forward_check_fail_restores_witness :
    (forward_check aF (0, 0) 5 dW).2 = dW :=
  forward_check_fail_restores aF (0, 0) 5 dW (by decide)

/-- C5: when `forward_check` succeeds, restoring the returned trail
    brings every domain back to exactly its contents before the call
    (round-trip identity on the domain map). -/
theorem restore_roundtrip (a : Assignments) (var : Var) (val : Nat)
    (doms : Domains) (s : FCState)
    (h : (forward_check a var val doms).1 = some s) :
    FCState.restore s (forward_check a var val doms).2 = doms := by
  obtain ⟨ihs, -⟩ := fcLoop_restore a val (NEIGHBORS var) doms []
  have h2 : forward_check a var val doms =
      (some s, (forward_check a var val doms).2) := by
    rw [← h]
  have h3 := ihs s (forward_check a var val doms).2 h2
  rw [h3, restore_nil]

/-- C5 (witness): a successful call pruning one value round-trips. -/
theorem restore_roundtrip_witness :
    FCState.restore ⟨[((0, 1), 5)]⟩ (forward_check aF (0, 0) 5 dW2).2 = dW2 :=
  restore_roundtrip aF (0, 0) 5 dW2 ⟨[((0, 1), 5)]⟩ (by decide)

/-- C6: whenever `solve` returns, every cell that was nonzero in the
    input grid still holds its input value: the search writes only to
    cells that were initially 0.  In particular all givens survive in a
    solved grid. -/
theorem solve_preserves_givens (tmo : Nat → Bool) (g : Grid) (b : Bool)
    (st : SState) (r c : Nat)
    (h : solve tmo g = some (b, st)) (hg : g r c ≠ 0) :
    st.grid r c = g r c :=
  backtrack_preserves_nonzero tmo 82 _ b st h r c hg

/-- C6 (witness): the given 2 at cell (0,1) of the one-blank board is
    unchanged in the solved grid. -/
theorem solve_preserves_givens_witness :
    st1.grid 0 1 = toGrid g1L 0 1 :=
  solve_preserves_givens tmoF (toGrid g1L) true st1 0 1 solve_g1 (by decide)

/-- C7 (counterexample): the 9x9 board `badValL` holds the value 10 at
    cell (0,0), outside [0,9], yet the constructor assertion passes:
    values are not range-checked at construction. -/
theorem out_of_range_value_accepted :
    initCheck badValL = true ∧ toGrid badValL 0 0 = 10 := ⟨rfl, rfl⟩

/-- C7 (amended): the constructor assertion rejects exactly the grids
    that are not 9x9; the value range of the entries is not checked. -/
theorem initCheck_iff_shape (p : PyGrid) :
    initCheck p = true ↔ (p.length = 9 ∧ ∀ row ∈ p, row.length = 9) := by
  unfold initCheck
  rw [Bool.and_eq_true, beq_iff_eq, List.all_eq_true]
  constructor
  · rintro ⟨h1, h2⟩
    exact ⟨h1, fun row hrow => by have := h2 row hrow; simpa using this⟩
  · rintro ⟨h1, h2⟩
    exact ⟨h1, fun row hrow => by simp [h2 row hrow]⟩

/-- C8 (counterexample): on the board `cexG8L` the search returns
    `solved = False` with the grid fully restored (the Boolean grid
    comparison with the input evaluates to true), yet the trace holds 4
    entries, two of them for cell (0,0) with different values.  No
    placement of this run survived, so the entries record attempted
    placements that were later undone, not the first 4 successful
    surviving placements. -/
theorem trace_records_undone_attempts :
    (solve tmoF (toGrid cexG8L)).map
        (fun p => (p.1, p.2.trace, p.2.checks, p.2.timedOut,
          gridEqB p.2.grid (toGrid cexG8L)))
      = some (false, [⟨0, 0, 2, 2, 1⟩, ⟨0, 1, 1, 1, 2⟩,
          ⟨0, 0, 2, 2, 2⟩, ⟨0, 1, 1, 1, 1⟩], 9, false, true) := by
  rfl

/-- C8 (amended): throughout any run of `solve` the trace never holds
    more than 4 entries; an entry is appended only while fewer than 4
    exist, counted globally across the whole search.  Each entry records
    a placement attempt that passed the validity check at the moment it
    was committed; it may later be undone by backtracking. -/
theorem solve_trace_le_four (tmo : Nat → Bool) (g : Grid) (b : Bool)
    (st : SState) (h : solve tmo g = some (b, st)) :
    st.trace.length ≤ 4 :=
  backtrack_trace_le tmo 82
    { grid := g, trace := [], checks := 0, timedOut := false } b st h
    (by show ([] : List TraceEntry).length ≤ 4; decide)

/-- C8 (witness): the trace of the one-blank run has at most 4
    entries. -/
theorem solve_trace_le_four_witness : st1.trace.length ≤ 4 :=
  solve_trace_le_four tmoF (toGrid g1L) true st1 solve_g1

/-- C9: `solve` always returns: the recursion of `backtrack` consumes
    one empty cell per level, the board has at most 81 empty cells, and
    fuel 82 therefore never runs out, for every input grid and every
    outcome of the deadline checks. -/
theorem solve_total (tmo : Nat → Bool) (g : Grid) :
    (solve tmo g).isSome = true := by
  apply backtrack_isSome
  show countEmpty g < 82
  have := countEmpty_le g
  omega

/-- C10: the rows of the grid the caller passes to the constructor are
    never mutated: the constructor copies each row into freshly
    allocated row objects (`[row[:] for row in puzzle]`) and every
    in-place write of the search targets one of those fresh rows, so
    after `solve` returns, every heap row allocated before construction
    still holds exactly its old contents. -/
theorem solve_preserves_caller_rows (tmo : Nat → Bool) (h : Heap)
    (rids : List Nat) (i : Nat) (h1 : Heap) (nids : List Nat) (b : Bool)
    (st : HS)
    (hlen : rids.length = 9) (hi : i < h.next)
    (hcopy : copyRows h rids = (h1, nids))
    (hrun : heapSolve tmo h1 nids = some (b, st)) :
    st.heap.store i = h.store i := by
  have hfresh : i ∉ nids := by
    intro hmem
    have := copyRows_fresh rids h i (by rw [hcopy]; exact hmem)
    omega
  have hlen' : nids.length = 9 := by
    have hl := copyRows_length rids h
    rw [hcopy] at hl
    dsimp only at hl
    omega
  have hframe := heapBacktrack_frame tmo nids hlen' 82 _ b st hrun i hfresh
  have hpres := copyRows_preserves i rids h hi
  rw [hcopy] at hpres
  exact hframe.trans hpres

/-- C10 (witness): constructing over a caller heap of nine rows and
    solving leaves caller row 0 untouched. -/
theorem solve_preserves_caller_rows_witness :
    (⟨(copyRows callerHeap callerRids).1, [], 1, false⟩ : HS).heap.store 0 =
      callerHeap.store 0 :=
  solve_preserves_caller_rows tmoF callerHeap callerRids 0
    (copyRows callerHeap callerRids).1 (copyRows callerHeap callerRids).2
    true ⟨(copyRows callerHeap callerRids).1, [], 1, false⟩
    (by decide) (by decide) rfl rfl

end Sudoku
